import Mathlib

/-!
A verification development for the jschon JSON Schema engine
(jschon-shamelessdowngrade). Each definition is a shallow embedding of a
function of the Python source; the file then proves properties of those
embeddings. Strings are modelled as lists of characters.

Source files embedded here:
- src/jschon/jsonpointer.py  (JSON Pointer: parse, render, evaluate, escaping)
- src/jschon/keywords/validation.py  (type, multipleOf, bounds, uniqueItems)
- src/jschon/vocabulary/core.py  ($schema, $vocabulary, $id, $dynamicRef)
- src/jschon/output.py  (output formatter: flag and basic formats)

Modules of the repository that are referenced but whose sources are not
available (jschon/json.py, jschon/uri.py, jschon/jsonschema.py,
jschon/exceptions.py, jschon/catalogue.py) are modelled from the spec;
each such definition carries a doc comment saying so.
-/

/-- Characters of a Python string. -/
abbrev Str := List Char

/-- Modelled from the spec: the error kinds of jschon/exceptions.py (not in
src/).  The spec error table (section 7) lists JSONPointerError, URIError,
CatalogueError and SchemaStructureError (named JSONSchemaError in the source
imports) as distinct kinds. -/
inductive JErr : Type where
  | jsonPointerError : JErr
  | uriError : JErr
  | jsonSchemaError : JErr
  | catalogueError : JErr
  deriving DecidableEq

namespace JSONPointer

/-- One pass of Python str.replace for a single-character pattern:
every occurrence of character c is replaced by the string r. -/
def replaceChar (c : Char) (r : Str) : Str → Str
  | [] => []
  | a :: s => (if a = c then r else [a]) ++ replaceChar c r s

/-- One pass of Python str.replace for a two-character pattern a,b:
a left-to-right scan replacing each non-overlapping occurrence of "ab"
by the single character r (both replacement strings in the source are
one character long). -/
def replacePair (a b r : Char) : Str → Str
  | [] => []
  | [x] => [x]
  | x :: y :: s =>
    if x = a ∧ y = b then r :: replacePair a b r s
    else x :: replacePair a b r (y :: s)

/-- JSONPointer.escape: key.replace(~, ~0).replace(/, ~1)
(tilde first, then slash, exactly as in the source). -/
def escape (k : Str) : Str :=
  replaceChar '/' ['~', '1'] (replaceChar '~' ['~', '0'] k)

/-- JSONPointer.unescape: token.replace(~1, /).replace(~0, ~)
(the ~1 pass runs first, exactly as in the source). -/
def unescape (t : Str) : Str :=
  replacePair '~' '0' '~' (replacePair '~' '1' '/' t)

/-- Validity of a single reference token, transcribing the token part
([^~/]|(~[01]))* of the source regex _json_pointer_re: no slash may occur,
and every tilde is followed by the digit 0 or 1. -/
def tokenValid : Str → Bool
  | [] => true
  | c :: s =>
    if c = '/' then false
    else if c = '~' then
      match s with
      | d :: s2 => if d = '0' ∨ d = '1' then tokenValid s2 else false
      | [] => false
    else tokenValid s

/-- The composition of the two unescape passes in a single scan: ~0
becomes a tilde, ~1 becomes a slash (proof helper; shown below to agree
with unescape on valid tokens). -/
def unescTok : Str → Str
  | [] => []
  | [c] => [c]
  | c :: d :: s =>
    if c = '~' ∧ d = '0' then '~' :: unescTok s
    else if c = '~' ∧ d = '1' then '/' :: unescTok s
    else c :: unescTok (d :: s)

/-- Python str.split on the slash character. -/
def splitSlash : Str → List Str
  | [] => [[]]
  | c :: s =>
    match splitSlash s with
    | [] => [[]]
    | t :: ts => if c = '/' then [] :: t :: ts else (c :: t) :: ts

/-- Full-match of the source regex _json_pointer_re, whose language is
(/token)* with token = ([^~/]|(~[01]))*: the string is empty, or it starts
with a slash and every chunk after the leading slash (Python split yields
the chunks between slashes) is a valid token. -/
def pointerStrValid (s : Str) : Bool :=
  match s with
  | [] => true
  | c :: _ => if c = '/' then (splitSlash s).tail.all tokenValid else false

/-- JSONPointer.__init__ for a single string argument: reject when the
RFC 6901 regex does not full-match, else split on slashes, drop the first
(empty) chunk, and unescape each token. -/
def fromString (s : Str) : Except JErr (List Str) :=
  if pointerStrValid s then .ok ((splitSlash s).tail.map unescape)
  else .error .jsonPointerError

/-- JSONPointer.__str__: concatenation of slash-prefixed escaped keys. -/
def toString (ks : List Str) : Str :=
  (ks.map (fun k => '/' :: escape k)).flatten

/-- Full-match of the source regex _array_index_re.  The pattern text is
caret 0 bar ([1-9][0-9]*) dollar; under re.fullmatch the first alternative
can only cover the whole string when the string is exactly "0", and the
second requires a nonzero leading digit, so the accepted language is
exactly 0|[1-9][0-9]*  (leading zeros reject). -/
def arrayIndexValid (k : Str) : Bool :=
  match k with
  | [] => false
  | c :: rest =>
    if c = '0' ∧ rest = [] then true
    else ('1' ≤ c && c ≤ '9') && rest.all (fun d => '0' ≤ d && d ≤ '9')

/-- Python int() on a string of decimal digits. -/
def digitsToNat (k : Str) : Nat :=
  k.foldl (fun acc c => 10 * acc + (c.toNat - '0'.toNat)) 0

end JSONPointer

/-- Modelled from the spec: the JSON value model of jschon/json.py (not in
src/).  A tagged variant over Null, Boolean, Integer, Number, String,
Array and Object (an ordered mapping with duplicate keys forbidden).
Numbers carry exact decimal values, modelled as rationals. -/
inductive JValue : Type where
  | null : JValue
  | bool (b : Bool) : JValue
  | int (n : Int) : JValue
  | num (q : Rat) : JValue
  | str (s : Str) : JValue
  | arr (xs : List JValue) : JValue
  | obj (ms : List (Str × JValue)) : JValue

/-- First-match lookup in an ordered mapping (Python dict indexing; the
spec forbids duplicate keys in JSON objects). -/
def assocLookup (ms : List (Str × JValue)) (k : Str) : Option JValue :=
  match ms with
  | [] => none
  | (k2, v) :: rest => if k2 = k then some v else assocLookup rest k

namespace JSONPointer

/-- JSONPointer.evaluate: descend through the document key by key.  A
mapping resolves by key lookup (KeyError becomes JSONPointerError); a
non-string sequence resolves by int(key) when the key full-matches
_array_index_re (IndexError becomes JSONPointerError); everything else,
including strings and the failed regex case, raises JSONPointerError. -/
def evaluate (doc : JValue) : List Str → Except JErr JValue
  | [] => .ok doc
  | k :: ks =>
    match doc with
    | .obj ms =>
      match assocLookup ms k with
      | some v => evaluate v ks
      | none => .error .jsonPointerError
    | .arr xs =>
      if arrayIndexValid k then
        match xs.get? (digitsToNat k) with
        | some v => evaluate v ks
        | none => .error .jsonPointerError
      else .error .jsonPointerError
    | _ => .error .jsonPointerError

end JSONPointer

mutual

/-- Structural (representation-level) equality test on JSON values;
used below to build the decidable sameness test. -/
def beqJ : JValue → JValue → Bool
  | .null, .null => true
  | .bool a, .bool b => a == b
  | .int a, .int b => a == b
  | .num a, .num b => a == b
  | .str a, .str b => a == b
  | .arr a, .arr b => beqL a b
  | .obj a, .obj b => beqO a b
  | _, _ => false

/-- Structural equality on lists of JSON values. -/
def beqL : List JValue → List JValue → Bool
  | [], [] => true
  | x :: xs, y :: ys => beqJ x y && beqL xs ys
  | _, _ => false

/-- Structural equality on object member lists. -/
def beqO : List (Str × JValue) → List (Str × JValue) → Bool
  | [], [] => true
  | (k, v) :: xs, (k2, v2) :: ys => k == k2 && beqJ v v2 && beqO xs ys
  | _, _ => false

end

/-- Lexicographic comparison of keys, used only to bring object members
into a canonical order. -/
def keyLe : Str → Str → Bool
  | [], _ => true
  | _ :: _, [] => false
  | c :: s, d :: t => if c = d then keyLe s t else decide (c < d)

/-- Insertion into a key-sorted member list. -/
def insortKey (p : Str × JValue) : List (Str × JValue) → List (Str × JValue)
  | [] => [p]
  | q :: rest => if keyLe p.1 q.1 then p :: q :: rest else q :: insortKey p rest

/-- Insertion sort of object members by key. -/
def sortByKey (ms : List (Str × JValue)) : List (Str × JValue) :=
  ms.foldr insortKey []

mutual

/-- Modelled from the spec: normal form for the JSON Schema sameness rule
of jschon/json.py (not in src/).  Equality of JSON values is structural;
numeric equality treats integers and mathematically-equal numbers as equal,
and object equality ignores member order (duplicate keys are forbidden).
Normalization maps every integer to the equal number and sorts object
members by key, so that two values are the same exactly when their normal
forms are equal. -/
def normJ : JValue → JValue
  | .null => .null
  | .bool b => .bool b
  | .int n => .num (n : Rat)
  | .num q => .num q
  | .str s => .str s
  | .arr xs => .arr (normL xs)
  | .obj ms => .obj (sortByKey (normO ms))

/-- Normalization of each element of an array. -/
def normL : List JValue → List JValue
  | [] => []
  | x :: xs => normJ x :: normL xs

/-- Normalization of each member value of an object. -/
def normO : List (Str × JValue) → List (Str × JValue)
  | [] => []
  | (k, v) :: rest => (k, normJ v) :: normO rest

end

/-- The JSON Schema sameness test (Python __eq__ on JSON values):
structural equality with cross-type numeric equivalence and
order-insensitive objects, decided via normal forms. -/
def jsonSame (a b : JValue) : Bool := beqJ (normJ a) (normJ b)

/-- Modelled from the spec: JSON.is_type of jschon/json.py (not in src/).
The instance type names accepted by the type keyword; an integer is also
of type number, and a number with zero fractional part is also of type
integer. -/
def isType (inst : JValue) (t : Str) : Bool :=
  if t = "null".toList then
    match inst with | .null => true | _ => false
  else if t = "boolean".toList then
    match inst with | .bool _ => true | _ => false
  else if t = "integer".toList then
    match inst with
    | .int _ => true
    | .num q => q.den = 1
    | _ => false
  else if t = "number".toList then
    match inst with | .int _ => true | .num _ => true | _ => false
  else if t = "string".toList then
    match inst with | .str _ => true | _ => false
  else if t = "array".toList then
    match inst with | .arr _ => true | _ => false
  else if t = "object".toList then
    match inst with | .obj _ => true | _ => false
  else false

/-- TypeKeyword.__init__: a single string value is wrapped into the
one-element list [value]; a list value is kept as is. -/
def typeKeywordValue : Str ⊕ List Str → List Str
  | .inl s => [s]
  | .inr l => l

/-- TypeKeyword.evaluate: valid iff the instance is of any of the listed
types. -/
def typeKeywordValid (value : List Str) (inst : JValue) : Bool :=
  value.any (fun t => isType inst t)

/-- UniqueItemsKeyword.evaluate, the uniquified scan: items are appended
to the kept list when no kept item compares equal (Python membership uses
__eq__, the sameness rule). -/
def uniqScan (acc : List JValue) : List JValue → List JValue
  | [] => acc
  | x :: xs =>
    if acc.any (fun y => jsonSame y x) then uniqScan acc xs
    else uniqScan (acc ++ [x]) xs

/-- UniqueItemsKeyword.evaluate validity: not self.value, or the array
and its uniquified copy have the same length. -/
def uniqueItemsValid (value : Bool) (xs : List JValue) : Bool :=
  !value || xs.length == (uniqScan [] xs).length

/-- Truncation toward zero on rationals (Python Decimal integer division
rounds toward zero). -/
def ratTrunc (q : Rat) : Int := if 0 ≤ q then ⌊q⌋ else -⌊-q⌋

/-- Python Decimal remainder: i - d * (i // d) with the quotient truncated
toward zero. -/
def decimalMod (i d : Rat) : Rat := i - d * (ratTrunc (i / d) : Rat)

/-- MultipleOfKeyword.evaluate: instance % value == 0 in exact decimal
arithmetic. -/
def multipleOfValid (inst value : Rat) : Bool := decimalMod inst value == 0

/-- MaximumKeyword.evaluate: instance <= value in exact decimal
arithmetic. -/
def maximumValid (inst value : Rat) : Bool := decide (inst ≤ value)

/-- ExclusiveMaximumKeyword.evaluate: instance < value. -/
def exclusiveMaximumValid (inst value : Rat) : Bool := decide (inst < value)

/-- MinimumKeyword.evaluate: instance >= value. -/
def minimumValid (inst value : Rat) : Bool := decide (value ≤ inst)

/-- ExclusiveMinimumKeyword.evaluate: instance > value. -/
def exclusiveMinimumValid (inst value : Rat) : Bool := decide (value < inst)

/-- The exact decimal value of the literal with the given digits and the
given number of decimal places, e.g. digits 100 with 2 places is the
decimal literal 1.00. -/
def decimalLit (digits : Int) (places : Nat) : Rat := (digits : Rat) / 10 ^ places

namespace URIM

/-- Modelled from the spec: an RFC 3986 reference split at its first hash
character into base part and fragment.  The fragment is present (possibly
empty) when the hash is present, absent otherwise. -/
def splitFragment : Str → Str × Option Str
  | [] => ([], none)
  | c :: s =>
    if c = '#' then ([], some s)
    else
      match splitFragment s with
      | (b, f) => (c :: b, f)

/-- Modelled from the spec: the fragment component of a URI reference. -/
def fragment (s : Str) : Option Str := (splitFragment s).2

/-- The base part of a URI reference (everything before the hash). -/
def withoutFragment (s : Str) : Str := (splitFragment s).1

/-- ASCII letter. -/
def isAlpha (c : Char) : Bool :=
  ('a' ≤ c && c ≤ 'z') || ('A' ≤ c && c ≤ 'Z')

/-- Character allowed after the first character of a URI scheme. -/
def isSchemeChar (c : Char) : Bool :=
  isAlpha c || ('0' ≤ c && c ≤ '9') || c = '+' || c = '-' || c = '.'

/-- The characters preceding the first scheme delimiter, and the rest. -/
def takeUntilDelim : Str → Str × Str
  | [] => ([], [])
  | c :: s =>
    if c = ':' ∨ c = '/' ∨ c = '?' ∨ c = '#' then ([], c :: s)
    else
      match takeUntilDelim s with
      | (a, b) => (c :: a, b)

/-- Modelled from the spec: the scheme of an RFC 3986 reference, present
when a valid scheme name ends at a colon that precedes any slash, question
mark or hash. -/
def schemeOf (s : Str) : Option Str :=
  match takeUntilDelim s with
  | (pre, ':' :: _) =>
    match pre with
    | [] => none
    | c :: rest => if isAlpha c && rest.all isSchemeChar then some (c :: rest) else none
  | _ => none

/-- Whether the reference carries a scheme. -/
def hasScheme (s : Str) : Bool := (schemeOf s).isSome

/-- Modelled from the spec: URI normalization is required by validate but
not specified in detail; it is approximated here as the scheme being
lowercase. -/
def isNormalized (s : Str) : Bool :=
  match schemeOf s with
  | some pre => pre.all (fun c => !('A' ≤ c && c ≤ 'Z'))
  | none => true

/-- Modelled from the spec: URI.validate with its three flags (require
scheme, require normalized, allow fragment). -/
def uriValidate (requireScheme requireNormalized allowFragment : Bool) (s : Str) : Bool :=
  (!requireScheme || hasScheme s) &&
  (!requireNormalized || isNormalized s) &&
  (allowFragment || (fragment s).isNone)

/-- Modelled from the spec: RFC 3986 absolute-URI, a reference with a
scheme and no fragment. -/
def isAbsolute (s : Str) : Bool := hasScheme s && (fragment s).isNone

/-- True when the string starts with two slashes. -/
def startsSlashSlash : Str → Bool
  | '/' :: '/' :: _ => true
  | _ => false

/-- The scheme-and-authority prefix of a fragmentless URI (used for
resolving references whose path is absolute). -/
def schemeAuthority (s : Str) : Str :=
  match schemeOf s with
  | some sc =>
    let rest := s.drop (sc.length + 1)
    if startsSlashSlash rest then
      sc ++ ':' :: '/' :: '/' :: ((rest.drop 2).takeWhile (fun c => c ≠ '/' ∧ c ≠ '?'))
    else sc ++ [':']
  | none => []

/-- The base path with its last segment removed (RFC 3986 merge). -/
def dropLastSegment (s : Str) : Str :=
  ((s.reverse).dropWhile (fun c => c ≠ '/')).reverse

/-- Modelled from the spec: RFC 3986 reference resolution against a base
(section 5.2, with dot-segment removal omitted).  A reference with a
scheme stands alone; a fragment-only (or empty) reference takes the base
with the new fragment; otherwise scheme, authority and leading path come
from the base as the reference requires. -/
def resolve (ref base : Str) : Str :=
  if hasScheme ref then ref
  else
    let bNoF := withoutFragment base
    let rNoF := withoutFragment ref
    let fragPart : Str :=
      match fragment ref with
      | some f => '#' :: f
      | none => []
    if rNoF = [] then bNoF ++ fragPart
    else if startsSlashSlash rNoF then
      (match schemeOf bNoF with
       | some sc => sc ++ [':']
       | none => []) ++ rNoF ++ fragPart
    else if rNoF.head? = some '/' then schemeAuthority bNoF ++ rNoF ++ fragPart
    else dropLastSegment bNoF ++ rNoF ++ fragPart

end URIM

/-- First-match lookup in an association list keyed by strings. -/
def alistLookup {α : Type} : List (Str × α) → Str → Option α
  | [], _ => none
  | (k2, v) :: rest, k => if k2 = k then some v else alistLookup rest k

/-- SchemaKeyword.__init__: validate the value as a URI with a scheme,
normalized (a URIError is caught and re-raised as JSONSchemaError); on
success the value becomes the metaschema URI of the parent schema. -/
def schemaKeywordInit (value : Str) : Except JErr Str :=
  if URIM.uriValidate true true true value then .ok value
  else .error .jsonSchemaError

/-- IdKeyword.__init__: validate the value as a normalized URI carrying no
fragment — the source does NOT catch the URIError here, so a failed
validation propagates as URIError, not as JSONSchemaError.  A non-absolute
value is resolved against the parent base URI; with no base URI a
JSONSchemaError is raised.  On success the resulting URI becomes the
schema URI of the parent schema. -/
def idKeywordInit (base : Option Str) (value : Str) : Except JErr Str :=
  if !URIM.uriValidate false true false value then .error .uriError
  else if URIM.isAbsolute value then .ok value
  else
    match base with
    | some b => .ok (URIM.resolve value b)
    | none => .error .jsonSchemaError

/-- DynamicRefKeyword.__init__: raise JSONSchemaError when the value has
no fragment or the fragment contains a slash; otherwise keep the fragment. -/
def dynamicRefInit (value : Str) : Except JErr Str :=
  match URIM.fragment value with
  | none => .error .jsonSchemaError
  | some f => if '/' ∈ f then .error .jsonSchemaError else .ok f

/-- The spec trichotomy of URI fragments: empty, a JSON Pointer (starting
with a slash), or a plain-name anchor.  A plain name is therefore nonempty
and slash-free. -/
def isPlainName (f : Str) : Bool := !f.isEmpty && !f.contains '/'

/-- Union of keyword-class names (Python dict.update on the keyword-class
mapping, membership-wise). -/
def listUnion (acc kws : List Str) : List Str :=
  acc ++ kws.filter (fun k => !acc.contains k)

/-- The per-vocabulary loop of VocabularyKeyword.__init__: each vocabulary
URI is validated (a URIError is re-raised as JSONSchemaError), a known
vocabulary contributes its keyword classes, and an unknown one raises
JSONSchemaError exactly when its map value (the required flag) is true. -/
def vocabularyLoop (cat : List (Str × List Str)) (acc : List Str) :
    List (Str × Bool) → Except JErr (List Str)
  | [] => .ok acc
  | (u, req) :: rest =>
    if !URIM.uriValidate true true true u then .error .jsonSchemaError
    else
      match alistLookup cat u with
      | some kws => vocabularyLoop cat (listUnion acc kws) rest
      | none =>
        if req then .error .jsonSchemaError
        else vocabularyLoop cat acc rest

/-- VocabularyKeyword.__init__: a no-op for a non-metaschema parent; for a
metaschema, the map must bind the core vocabulary URI to true, and then
each listed vocabulary is processed in order. -/
def vocabularyInit (isMeta : Bool) (coreUri : Str) (cat : List (Str × List Str))
    (kw0 : List Str) (value : List (Str × Bool)) : Except JErr (List Str) :=
  if !isMeta then .ok kw0
  else if alistLookup value coreUri = some true then vocabularyLoop cat kw0 value
  else .error .jsonSchemaError

/-- Modelled from the spec: a compiled schema as seen by the dynamic
reference walk — an identity plus the value of its dynamicAnchor keyword,
if any (jschon/jsonschema.py is not in src/). -/
structure DSchema : Type where
  name : Str
  dynAnchor : Option Str
  deriving DecidableEq

/-- The while loop of DynamicRefKeyword.evaluate: walk the scope stack
from the innermost scope to the root; a scope whose schema has a base URI
not yet checked looks up base#fragment in the catalogue, and when the
schema found there carries a matching dynamicAnchor it replaces the
current target, so the last replacement (the outermost newly-checked
match) wins.  A catalogue miss is swallowed. -/
def dynamicRefWalk (cat : List (Str × DSchema)) (frag : Str) :
    List (Option Str) → List Str → DSchema → DSchema
  | [], _, ref => ref
  | b :: outer, checked, ref =>
    match b with
    | none => dynamicRefWalk cat frag outer checked ref
    | some base =>
      if base ∈ checked then dynamicRefWalk cat frag outer checked ref
      else
        match alistLookup cat (URIM.resolve ('#' :: frag) base) with
        | some found =>
          if found.dynAnchor = some frag then
            dynamicRefWalk cat frag outer (base :: checked) found
          else dynamicRefWalk cat frag outer (base :: checked) ref
        | none => dynamicRefWalk cat frag outer (base :: checked) ref

/-- DynamicRefKeyword.evaluate: when the reference was marked dynamic at
resolve time, the walk chooses the target starting from the initially
resolved default target; otherwise the default target is evaluated.  The
stack lists each scope schema's base URI, innermost first. -/
def dynamicRefTarget (cat : List (Str × DSchema)) (frag : Str) (dynamic : Bool)
    (defaultTarget : DSchema) (stack : List (Option Str)) : DSchema :=
  if dynamic then dynamicRefWalk cat frag stack [] defaultTarget
  else defaultTarget

/-- The dynamic match yielded by one scope of the stack, per the claim:
the schema registered in the catalogue under base#fragment, provided it
carries a matching dynamicAnchor. -/
def dynamicMatch (cat : List (Str × DSchema)) (frag : Str) :
    Option Str → Option DSchema
  | none => none
  | some base =>
    match alistLookup cat (URIM.resolve ('#' :: frag) base) with
    | some found => if found.dynAnchor = some frag then some found else none
    | none => none

/-- The claim's rule, written from its words: the match of the OUTERMOST
scope on the stack (the stack is innermost-first, so the last match) wins;
with no match anywhere, the default target stands. -/
def claimDynamicTarget (cat : List (Str × DSchema)) (frag : Str)
    (defaultTarget : DSchema) (stack : List (Option Str)) : DSchema :=
  ((stack.filterMap (dynamicMatch cat frag)).getLast?).getD defaultTarget

/-- The deduplication performed by the checked_uris set of the source
walk: of the base URIs on the stack, each is kept only at its innermost
occurrence. -/
def dedupBases : List (Option Str) → List Str → List (Option Str)
  | [], _ => []
  | none :: rest, seen => dedupBases rest seen
  | some b :: rest, seen =>
    if b ∈ seen then dedupBases rest seen
    else some b :: dedupBases rest (b :: seen)

/-- Modelled from the spec: an evaluation scope node of
jschon/jsonschema.py (not in src/): instance location, keyword location,
absolute keyword URI, the error set by a failed assertion, the value set
by an annotating keyword (field ann), and the ordered children. -/
inductive Scope : Type where
  | node (instpath path absUri : Str) (error : Option Str) (ann : Option Str)
      (children : List Scope) : Scope

/-- The instance location of a scope. -/
def Scope.instpath : Scope → Str
  | .node ip _ _ _ _ _ => ip

/-- The keyword location of a scope. -/
def Scope.path : Scope → Str
  | .node _ p _ _ _ _ => p

/-- The absolute keyword URI of a scope. -/
def Scope.absUri : Scope → Str
  | .node _ _ u _ _ _ => u

/-- The error of a scope. -/
def Scope.error : Scope → Option Str
  | .node _ _ _ e _ _ => e

/-- The annotation value of a scope. -/
def Scope.ann : Scope → Option Str
  | .node _ _ _ _ a _ => a

/-- The children of a scope. -/
def Scope.children : Scope → List Scope
  | .node _ _ _ _ _ cs => cs

/-- Python truthiness of an optional error string: None and the empty
string are falsy. -/
def errFalsy : Option Str → Bool
  | none => true
  | some s => s.isEmpty

mutual

/-- Modelled from the spec: Scope.valid is derived — true iff no scope of
the subtree has an error set. -/
def scopeValid : Scope → Bool
  | .node _ _ _ e _ cs => e.isNone && scopeValidL cs

/-- Validity of every scope in a list. -/
def scopeValidL : List Scope → Bool
  | [] => true
  | c :: cs => scopeValid c && scopeValidL cs

end

/-- An entry of the basic-format annotations list; the ann field is the
"annotation" key of the emitted object. -/
structure AnnEntry : Type where
  instanceLocation : Str
  keywordLocation : Str
  absoluteKeywordLocation : Str
  ann : Str
  deriving DecidableEq

/-- An entry of the basic-format errors list; the source emits
scope.error verbatim, so the field is optional. -/
structure ErrEntry : Type where
  instanceLocation : Str
  keywordLocation : Str
  absoluteKeywordLocation : Str
  error : Option Str
  deriving DecidableEq

mutual

/-- OutputFormatter._flatten_annotations: a scope with a falsy error
yields its own entry when its annotation is set, then recurses into its
children; a scope with a truthy error prunes its whole subtree. -/
def flattenAnnotations : Scope → List AnnEntry
  | .node ip p u e a cs =>
    if errFalsy e then
      (match a with
       | some av => [⟨ip, p, u, av⟩]
       | none => []) ++ flattenAnnotationsL cs
    else []

/-- _flatten_annotations over a child list. -/
def flattenAnnotationsL : List Scope → List AnnEntry
  | [] => []
  | c :: cs => flattenAnnotations c ++ flattenAnnotationsL cs

end

mutual

/-- OutputFormatter._flatten_errors: an invalid scope yields its entry and
recurses into its children; a valid scope yields nothing. -/
def flattenErrors : Scope → List ErrEntry
  | .node ip p u e a cs =>
    if scopeValid (.node ip p u e a cs) then []
    else ⟨ip, p, u, e⟩ :: flattenErrorsL cs

/-- _flatten_errors over a child list. -/
def flattenErrorsL : List Scope → List ErrEntry
  | [] => []
  | c :: cs => flattenErrors c ++ flattenErrorsL cs

end

/-- The object returned by OutputFormatter.basic: the root validity, and
either the flattened annotations (when valid) or the flattened errors. -/
structure BasicOutput : Type where
  valid : Bool
  annotations : Option (List AnnEntry)
  errors : Option (List ErrEntry)
  deriving DecidableEq

/-- OutputFormatter.basic. -/
def basicOutput (s : Scope) : BasicOutput :=
  if scopeValid s then ⟨true, some (flattenAnnotations s), none⟩
  else ⟨false, none, some (flattenErrors s)⟩

mutual

/-- Preorder traversal of a scope tree. -/
def preorder : Scope → List Scope
  | .node ip p u e a cs => .node ip p u e a cs :: preorderL cs

/-- Preorder traversal of a forest. -/
def preorderL : List Scope → List Scope
  | [] => []
  | c :: cs => preorder c ++ preorderL cs

end

/-- The claim's annotations list: in preorder, an entry for exactly those
scopes whose annotation is set and whose entire subtree is error-free. -/
def claimAnnEntries (s : Scope) : List AnnEntry :=
  (preorder s).filterMap fun t =>
    match Scope.ann t with
    | some av =>
      if scopeValid t then some ⟨Scope.instpath t, Scope.path t, Scope.absUri t, av⟩
      else none
    | none => none

/-- The claim's errors list: in preorder, an entry of the same shape for
every failing scope. -/
def claimErrEntries (s : Scope) : List ErrEntry :=
  (preorder s).filterMap fun t =>
    if scopeValid t then none
    else some ⟨Scope.instpath t, Scope.path t, Scope.absUri t, Scope.error t⟩

/-- The claim's array-index language, written from its words: the token
full-matches 0|[1-9][0-9]* — a single zero, or a nonzero digit followed
by digits (so leading zeros reject). -/
def specCanonicalIndex : Str → Bool
  | [] => false
  | c :: rest =>
    (decide (c = '0') && rest.isEmpty) ||
      (('1' ≤ c && c ≤ '9') && rest.all (fun d => '0' ≤ d && d ≤ '9'))

/-- The claim's description of pointer evaluation, written from its
words: descend key by key; an object resolves a present key; an array
resolves a canonical in-range index token; every other combination — an
absent key, an out-of-range index, a non-canonical token on an array, or
a numeric token applied to a non-array (including a string) — fails. -/
def specDescend : JValue → List Str → Option JValue
  | d, [] => some d
  | .obj ms, k :: ks =>
    match assocLookup ms k with
    | some v => specDescend v ks
    | none => none
  | .arr xs, k :: ks =>
    if specCanonicalIndex k then
      match xs.get? (JSONPointer.digitsToNat k) with
      | some v => specDescend v ks
      | none => none
    else none
  | _, _ :: _ => none

/-- The claim's annotations list over a forest. -/
def claimAnnEntriesL (cs : List Scope) : List AnnEntry :=
  (preorderL cs).filterMap fun t =>
    match Scope.ann t with
    | some av =>
      if scopeValid t then some ⟨Scope.instpath t, Scope.path t, Scope.absUri t, av⟩
      else none
    | none => none

/-- The claim's errors list over a forest. -/
def claimErrEntriesL (cs : List Scope) : List ErrEntry :=
  (preorderL cs).filterMap fun t =>
    if scopeValid t then none
    else some ⟨Scope.instpath t, Scope.path t, Scope.absUri t, Scope.error t⟩

theorem ratTrunc_intCast (k : Int) : ratTrunc (k : Rat) = k := by
  unfold ratTrunc
  split
  · exact Int.floor_intCast k
  · have h : (-(k : Rat)) = ((-k : Int) : Rat) := by push_cast; ring
    rw [h, Int.floor_intCast]
    ring

/-- C10: the type keyword treats a single string value exactly as the
one-element list holding it: for every instance and every type name the
two forms produce the same verdict. -/
theorem type_keyword_string_list_equiv :
    ∀ (inst : JValue) (t : Str),
      typeKeywordValid (typeKeywordValue (.inl t)) inst =
        typeKeywordValid (typeKeywordValue (.inr [t])) inst := by
  intro inst t
  rfl

/-- C7: multipleOf passes exactly when the divisor divides the instance in
exact decimal (rational) arithmetic, and the four bound keywords compare
instance and bound by the exact order on rationals; the decimal literals
1, 1.0 and 1.00 denote the same value. -/
theorem numeric_keywords_exact_decimal :
    (∀ i d : Rat, 0 < d →
      (multipleOfValid i d = true ↔ ∃ k : Int, i = (k : Rat) * d)) ∧
    (∀ i b : Rat, maximumValid i b = true ↔ i ≤ b) ∧
    (∀ i b : Rat, exclusiveMaximumValid i b = true ↔ i < b) ∧
    (∀ i b : Rat, minimumValid i b = true ↔ b ≤ i) ∧
    (∀ i b : Rat, exclusiveMinimumValid i b = true ↔ b < i) ∧
    (decimalLit 1 0 = 1 ∧ decimalLit 10 1 = 1 ∧ decimalLit 100 2 = 1) := by
  refine ⟨?_, ?_, ?_, ?_, ?_, ?_, ?_, ?_⟩
  · intro i d hd
    have hdne : d ≠ 0 := ne_of_gt hd
    simp only [multipleOfValid, decimalMod, beq_iff_eq]
    constructor
    · intro h
      refine ⟨ratTrunc (i / d), ?_⟩
      linarith
    · rintro ⟨k, rfl⟩
      have hq : (k : Rat) * d / d = (k : Rat) := by
        field_simp
      rw [hq, ratTrunc_intCast]
      ring
  · intro i b; simp [maximumValid]
  · intro i b; simp [exclusiveMaximumValid]
  · intro i b; simp [minimumValid]
  · intro i b; simp [exclusiveMinimumValid]
  · norm_num [decimalLit]
  · norm_num [decimalLit]
  · norm_num [decimalLit]

/-- Witness for C7 at concrete inputs: divisor 3/2 is positive and 6 is a
multiple of it. -/
theorem numeric_keywords_witness :
    (0 : Rat) < 3 / 2 ∧ multipleOfValid 6 (3 / 2) = true :=
  ⟨by norm_num,
   (numeric_keywords_exact_decimal.1 6 (3 / 2) (by norm_num)).mpr
     ⟨4, by norm_num⟩⟩

/-- C5 counterexample: the value consisting of a single hash character
carries a fragment (the empty string, i.e. the empty JSON Pointer), which
is not a plain name, yet DynamicRefKeyword construction succeeds instead
of raising. -/
theorem dynamicref_init_empty_fragment_counterexample :
    URIM.fragment ['#'] = some [] ∧ isPlainName [] = false ∧
      dynamicRefInit ['#'] = .ok [] :=
  ⟨rfl, rfl, rfl⟩

/-- C5 (amended): constructing a dynamicRef keyword raises
JSONSchemaError exactly when the value has no fragment or its fragment
contains a slash; every value ending in a plain-name fragment succeeds,
but so does every value with a slash-free non-name fragment, such as the
empty fragment. -/
theorem dynamicref_init_characterization :
    ∀ v : Str,
      (URIM.fragment v = none → dynamicRefInit v = .error .jsonSchemaError) ∧
      (∀ f, URIM.fragment v = some f → '/' ∈ f →
        dynamicRefInit v = .error .jsonSchemaError) ∧
      (∀ f, URIM.fragment v = some f → '/' ∉ f → dynamicRefInit v = .ok f) ∧
      (∀ f, URIM.fragment v = some f → isPlainName f = true →
        dynamicRefInit v = .ok f) := by
  intro v
  refine ⟨?_, ?_, ?_, ?_⟩
  · intro h; simp [dynamicRefInit, h]
  · intro f h hm; simp [dynamicRefInit, h, hm]
  · intro f h hm; simp [dynamicRefInit, h, hm]
  · intro f h hp
    simp only [isPlainName, Bool.and_eq_true, Bool.not_eq_true', List.isEmpty_eq_false,
      Bool.not_eq_true] at hp
    have hm : '/' ∉ f := by
      intro hmem
      have hc : f.contains '/' = true := List.elem_iff.mpr hmem
      rw [hp.2] at hc
      exact Bool.false_ne_true hc
    simp [dynamicRefInit, h, hm]

/-- Witness for C5 at concrete inputs: a plain-name fragment succeeds, a
missing fragment and a JSON-Pointer fragment raise. -/
theorem dynamicref_init_witness :
    dynamicRefInit ("http://x#n".toList) = .ok ['n'] ∧
    dynamicRefInit ("http://x".toList) = .error .jsonSchemaError ∧
    dynamicRefInit ("http://x#/a".toList) = .error .jsonSchemaError :=
  ⟨((dynamicref_init_characterization ("http://x#n".toList)).2.2.2 ['n']
      (by decide) (by decide)),
   ((dynamicref_init_characterization ("http://x".toList)).1 (by decide)),
   ((dynamicref_init_characterization ("http://x#/a".toList)).2.1
      ("/a".toList) (by decide) (by decide))⟩

/-- C9 counterexample: an id value carrying a fragment is invalid, and
construction fails — but with URIError (the source does not wrap the
validation error), not with the claimed SchemaStructureError. -/
theorem id_keyword_error_kind_counterexample :
    idKeywordInit none ("#f".toList) = .error .uriError ∧
      idKeywordInit none ("#f".toList) ≠ .error .jsonSchemaError :=
  ⟨rfl, fun h => by
    rw [show idKeywordInit none ("#f".toList) = Except.error JErr.uriError from rfl] at h
    simp at h⟩

/-- C9 (amended): a value failing URI validation (un-normalized or
fragment-carrying) makes IdKeyword construction fail with URIError (not
SchemaStructureError); a valid absolute value becomes the schema URI as
is; a valid relative value resolves against the parent base URI, and with
no base URI construction fails with JSONSchemaError; SchemaKeyword wraps
its URI validation failure into JSONSchemaError, and a valid value
becomes the metaschema URI. -/
theorem id_schema_keyword_characterization :
    (∀ (base : Option Str) (v : Str),
      URIM.uriValidate false true false v = false →
        idKeywordInit base v = .error .uriError) ∧
    (∀ (base : Option Str) (v : Str),
      URIM.uriValidate false true false v = true →
        URIM.isAbsolute v = true → idKeywordInit base v = .ok v) ∧
    (∀ (b v : Str),
      URIM.uriValidate false true false v = true →
        URIM.isAbsolute v = false →
          idKeywordInit (some b) v = .ok (URIM.resolve v b)) ∧
    (∀ v : Str,
      URIM.uriValidate false true false v = true →
        URIM.isAbsolute v = false →
          idKeywordInit none v = .error .jsonSchemaError) ∧
    (∀ v : Str, URIM.uriValidate true true true v = true →
      schemaKeywordInit v = .ok v) ∧
    (∀ v : Str, URIM.uriValidate true true true v = false →
      schemaKeywordInit v = .error .jsonSchemaError) := by
  refine ⟨?_, ?_, ?_, ?_, ?_, ?_⟩
  · intro base v h; simp [idKeywordInit, h]
  · intro base v h ha; simp [idKeywordInit, h, ha]
  · intro b v h ha; simp [idKeywordInit, h, ha]
  · intro v h ha; simp [idKeywordInit, h, ha]
  · intro v h; simp [schemaKeywordInit, h]
  · intro v h; simp [schemaKeywordInit, h]

/-- Witness for C9 at concrete inputs: an absolute id stands, a relative
id resolves against the base, a relative id without base fails, a valid
schema value becomes the metaschema URI. -/
theorem id_schema_keyword_witness :
    idKeywordInit none ("http://a/b".toList) = .ok ("http://a/b".toList) ∧
    idKeywordInit (some ("http://a/b".toList)) ("c".toList) =
      .ok (URIM.resolve ("c".toList) ("http://a/b".toList)) ∧
    idKeywordInit none ("c".toList) = .error .jsonSchemaError ∧
    schemaKeywordInit ("http://a/b".toList) = .ok ("http://a/b".toList) :=
  ⟨id_schema_keyword_characterization.2.1 none ("http://a/b".toList)
      (by decide) (by decide),
   id_schema_keyword_characterization.2.2.1 ("http://a/b".toList) ("c".toList)
      (by decide) (by decide),
   id_schema_keyword_characterization.2.2.2.1 ("c".toList)
      (by decide) (by decide),
   id_schema_keyword_characterization.2.2.2.2.1 ("http://a/b".toList)
      (by decide)⟩

theorem arrayIndexValid_eq_spec :
    ∀ k : Str, JSONPointer.arrayIndexValid k = specCanonicalIndex k := by
  intro k
  cases k with
  | nil => rfl
  | cons c rest =>
    simp only [JSONPointer.arrayIndexValid, specCanonicalIndex]
    split_ifs with h
    · obtain ⟨hc, hr⟩ := h
      subst hc; subst hr
      decide
    · by_cases hc : c = '0'
      · subst hc
        have hr : rest ≠ [] := by
          intro hr; exact h ⟨rfl, hr⟩
        have hre : rest.isEmpty = false := by
          cases rest with
          | nil => exact absurd rfl hr
          | cons a l => rfl
        simp [hre]
      · simp [hc]

/-- C4: pointer evaluation returns exactly the value reached by the
claim's key-by-key descent, failing with JSONPointerError whenever a key
is absent from an object, an index is out of range, a token applied to an
array does not full-match 0|[1-9][0-9]* (leading zeros reject), or a
numeric token is applied to a non-array (including a string); and the
array-index test of the source regex accepts exactly the claim's
language. -/
theorem jsonpointer_evaluate_characterization :
    (∀ k : Str, JSONPointer.arrayIndexValid k = specCanonicalIndex k) ∧
    (∀ (ks : List Str) (d : JValue),
      JSONPointer.evaluate d ks =
        (specDescend d ks).elim (.error .jsonPointerError) .ok) := by
  refine ⟨arrayIndexValid_eq_spec, ?_⟩
  intro ks
  induction ks with
  | nil => intro d; cases d <;> rfl
  | cons k ks ih =>
    intro d
    cases d with
    | obj ms =>
      simp only [JSONPointer.evaluate, specDescend]
      cases assocLookup ms k with
      | some v => exact ih v
      | none => rfl
    | arr xs =>
      simp only [JSONPointer.evaluate, specDescend, arrayIndexValid_eq_spec]
      by_cases hk : specCanonicalIndex k = true
      · simp only [hk, if_true]
        cases xs.get? (JSONPointer.digitsToNat k) with
        | some v => exact ih v
        | none => rfl
      · simp only [Bool.not_eq_true] at hk
        simp [hk]
    | null => rfl
    | bool b => rfl
    | int n => rfl
    | num q => rfl
    | str s => rfl

theorem listUnion_mem (acc kws : List Str) (k : Str) :
    k ∈ listUnion acc kws ↔ k ∈ acc ∨ k ∈ kws := by
  simp only [listUnion, List.mem_append, List.mem_filter, Bool.not_eq_true']
  constructor
  · rintro (h | ⟨h, _⟩)
    · exact Or.inl h
    · exact Or.inr h
  · rintro (h | h)
    · exact Or.inl h
    · by_cases ha : k ∈ acc
      · exact Or.inl ha
      · refine Or.inr ⟨h, ?_⟩
        rw [← Bool.not_eq_true]
        intro hc
        exact ha (List.elem_iff.mp hc)

theorem vocabularyLoop_ok_mem :
    ∀ (cat : List (Str × List Str)) (value : List (Str × Bool)) (acc res : List Str),
      vocabularyLoop cat acc value = .ok res →
      ∀ k : Str, k ∈ res ↔
        k ∈ acc ∨ ∃ u req kws, (u, req) ∈ value ∧ alistLookup cat u = some kws ∧ k ∈ kws := by
  intro cat value
  induction value with
  | nil =>
    intro acc res h k
    simp only [vocabularyLoop] at h
    cases h
    simp
  | cons p rest ih =>
    intro acc res h k
    obtain ⟨u, req⟩ := p
    simp only [vocabularyLoop] at h
    by_cases hv : URIM.uriValidate true true true u = true
    · rw [hv] at h
      simp only [Bool.not_true, Bool.false_eq_true, if_false] at h
      cases hl : alistLookup cat u with
      | some kws =>
        rw [hl] at h
        have hres := ih (listUnion acc kws) res h k
        rw [hres, listUnion_mem]
        constructor
        · rintro ((ha | hk) | ⟨u2, req2, kws2, hm, hl2, hk2⟩)
          · exact Or.inl ha
          · exact Or.inr ⟨u, req, kws, List.mem_cons_self _ _, hl, hk⟩
          · exact Or.inr ⟨u2, req2, kws2, List.mem_cons_of_mem _ hm, hl2, hk2⟩
        · rintro (ha | ⟨u2, req2, kws2, hm, hl2, hk2⟩)
          · exact Or.inl (Or.inl ha)
          · rcases List.mem_cons.mp hm with heq | hm2
            · obtain ⟨hu, _⟩ := Prod.mk.injEq .. ▸ heq
              cases heq
              rw [hl] at hl2
              cases hl2
              exact Or.inl (Or.inr hk2)
            · exact Or.inr ⟨u2, req2, kws2, hm2, hl2, hk2⟩
      | none =>
        rw [hl] at h
        cases req with
        | true => simp at h
        | false =>
          simp only [if_false] at h
          have hres := ih acc res h k
          rw [hres]
          constructor
          · rintro (ha | ⟨u2, req2, kws2, hm, hl2, hk2⟩)
            · exact Or.inl ha
            · exact Or.inr ⟨u2, req2, kws2, List.mem_cons_of_mem _ hm, hl2, hk2⟩
          · rintro (ha | ⟨u2, req2, kws2, hm, hl2, hk2⟩)
            · exact Or.inl ha
            · rcases List.mem_cons.mp hm with heq | hm2
              · cases heq
                rw [hl] at hl2
                cases hl2
              · exact Or.inr ⟨u2, req2, kws2, hm2, hl2, hk2⟩
    · rw [Bool.not_eq_true] at hv
      rw [hv] at h
      simp at h

theorem vocabularyLoop_isOk_iff :
    ∀ (cat : List (Str × List Str)) (value : List (Str × Bool)) (acc : List Str),
      (∀ u req, (u, req) ∈ value → URIM.uriValidate true true true u = true) →
      ((vocabularyLoop cat acc value).isOk = true ↔
        ∀ u req, (u, req) ∈ value → req = true → (alistLookup cat u).isSome = true) := by
  intro cat value
  induction value with
  | nil =>
    intro acc _
    simp [vocabularyLoop, Except.isOk, Except.toBool]
  | cons p rest ih =>
    intro acc hval
    obtain ⟨u, req⟩ := p
    have hv : URIM.uriValidate true true true u = true :=
      hval u req (List.mem_cons_self _ _)
    have hvrest : ∀ u2 req2, (u2, req2) ∈ rest → URIM.uriValidate true true true u2 = true :=
      fun u2 req2 hm => hval u2 req2 (List.mem_cons_of_mem _ hm)
    simp only [vocabularyLoop, hv, Bool.not_true, Bool.false_eq_true, if_false]
    cases hl : alistLookup cat u with
    | some kws =>
      rw [ih (listUnion acc kws) hvrest]
      constructor
      · intro h u2 req2 hm hreq
        rcases List.mem_cons.mp hm with heq | hm2
        · cases heq
          rw [hl]
          rfl
        · exact h u2 req2 hm2 hreq
      · intro h u2 req2 hm2 hreq
        exact h u2 req2 (List.mem_cons_of_mem _ hm2) hreq
    | none =>
      cases req with
      | true =>
        rw [if_pos rfl]
        constructor
        · intro h
          simp [Except.isOk, Except.toBool] at h
        · intro h
          have := h u true (List.mem_cons_self _ _) rfl
          rw [hl] at this
          simp at this
      | false =>
        rw [if_neg Bool.false_ne_true]
        rw [ih acc hvrest]
        constructor
        · intro h u2 req2 hm hreq
          rcases List.mem_cons.mp hm with heq | hm2
          · cases heq
            cases hreq
          · exact h u2 req2 hm2 hreq
        · intro h u2 req2 hm2 hreq
          exact h u2 req2 (List.mem_cons_of_mem _ hm2) hreq

/-- C8: for a metaschema, VocabularyKeyword construction fails with
JSONSchemaError unless the map binds the core vocabulary URI to true; on
success the keyword-class set is the initial set united with the keyword
classes of every listed vocabulary known to the catalogue; and (with all
vocabulary URIs valid) construction succeeds exactly when every
unrecognized vocabulary has its required flag false. -/
theorem vocabulary_keyword_characterization :
    ∀ (cat : List (Str × List Str)) (coreUri : Str) (kw0 : List Str)
      (value : List (Str × Bool)),
      (alistLookup value coreUri ≠ some true →
        vocabularyInit true coreUri cat kw0 value = .error .jsonSchemaError) ∧
      (∀ res, vocabularyInit true coreUri cat kw0 value = .ok res →
        ∀ k : Str, k ∈ res ↔
          k ∈ kw0 ∨ ∃ u req kws, (u, req) ∈ value ∧ alistLookup cat u = some kws ∧ k ∈ kws) ∧
      ((alistLookup value coreUri = some true ∧
          ∀ u req, (u, req) ∈ value → URIM.uriValidate true true true u = true) →
        ((vocabularyInit true coreUri cat kw0 value).isOk = true ↔
          ∀ u req, (u, req) ∈ value → req = true → (alistLookup cat u).isSome = true)) := by
  intro cat coreUri kw0 value
  refine ⟨?_, ?_, ?_⟩
  · intro h
    simp only [vocabularyInit, Bool.not_true, Bool.false_eq_true, if_false]
    rw [if_neg h]
  · intro res h k
    simp only [vocabularyInit, Bool.not_true, Bool.false_eq_true, if_false] at h
    by_cases hc : alistLookup value coreUri = some true
    · rw [if_pos hc] at h
      exact vocabularyLoop_ok_mem cat value kw0 res h k
    · rw [if_neg hc] at h
      cases h
  · rintro ⟨hc, hval⟩
    simp only [vocabularyInit, Bool.not_true, Bool.false_eq_true, if_false, if_pos hc]
    exact vocabularyLoop_isOk_iff cat value kw0 hval

/-- Witness for C8 at a concrete metaschema: with the core vocabulary
required and an optional unknown vocabulary the construction succeeds;
with the core binding absent it fails. -/
theorem vocabulary_keyword_witness :
    (vocabularyInit true ("http://core".toList)
        [(("http://core".toList), [['c']])] []
        [(("http://core".toList), true), (("http://opt".toList), false)]).isOk = true ∧
    vocabularyInit true ("http://core".toList)
        [(("http://core".toList), [['c']])] []
        [(("http://opt".toList), false)] = .error .jsonSchemaError := by
  constructor
  · refine ((vocabulary_keyword_characterization _ _ _ _).2.2 ⟨by decide, ?_⟩).mpr ?_
    · intro u req hm
      simp only [List.mem_cons, List.not_mem_nil, or_false] at hm
      rcases hm with h | h
      · cases h; decide
      · cases h; decide
    · intro u req hm hreq
      simp only [List.mem_cons, List.not_mem_nil, or_false] at hm
      rcases hm with h | h
      · cases h; decide
      · cases h; cases hreq
  · exact (vocabulary_keyword_characterization _ _ _ _).1 (by decide)

theorem getLastD_cons {α : Type} (x : α) (l : List α) (d : α) :
    ((x :: l).getLast?).getD d = (l.getLast?).getD x := by
  induction l generalizing x d with
  | nil => rfl
  | cons y ys ih =>
    calc ((x :: y :: ys).getLast?).getD d
        = ((y :: ys).getLast?).getD d := by rw [List.getLast?_cons_cons]
      _ = (ys.getLast?).getD y := ih y d
      _ = ((y :: ys).getLast?).getD x := (ih y x).symm

theorem dynamicRefWalk_eq (cat : List (Str × DSchema)) (frag : Str) :
    ∀ (stack : List (Option Str)) (checked : List Str) (ref : DSchema),
      dynamicRefWalk cat frag stack checked ref =
        (((dedupBases stack checked).filterMap (dynamicMatch cat frag)).getLast?).getD ref := by
  intro stack
  induction stack with
  | nil => intro checked ref; rfl
  | cons b rest ih =>
    intro checked ref
    cases b with
    | none =>
      simp only [dynamicRefWalk, dedupBases]
      exact ih checked ref
    | some base =>
      by_cases hc : base ∈ checked
      · simp only [dynamicRefWalk, dedupBases, if_pos hc]
        exact ih checked ref
      · simp only [dynamicRefWalk, dedupBases, if_neg hc]
        cases hl : alistLookup cat (URIM.resolve ('#' :: frag) base) with
        | some found =>
          dsimp only
          by_cases ha : found.dynAnchor = some frag
          · rw [if_pos ha, ih (base :: checked) found]
            have hm : dynamicMatch cat frag (some base) = some found := by
              simp [dynamicMatch, hl, ha]
            rw [List.filterMap_cons, hm, getLastD_cons]
          · rw [if_neg ha, ih (base :: checked) ref]
            have hm : dynamicMatch cat frag (some base) = none := by
              simp [dynamicMatch, hl, ha]
            rw [List.filterMap_cons, hm]
        | none =>
          dsimp only
          rw [ih (base :: checked) ref]
          have hm : dynamicMatch cat frag (some base) = none := by
            simp [dynamicMatch, hl]
          rw [List.filterMap_cons, hm]

theorem dedupBases_sublist : ∀ (stack : List (Option Str)) (seen : List Str),
    (dedupBases stack seen).Sublist stack := by
  intro stack
  induction stack with
  | nil => intro seen; simp [dedupBases]
  | cons b rest ih =>
    intro seen
    cases b with
    | none => exact (ih seen).trans (List.sublist_cons_self _ _)
    | some base =>
      by_cases hc : base ∈ seen
      · simp only [dedupBases, if_pos hc]
        exact (ih seen).trans (List.sublist_cons_self _ _)
      · simp only [dedupBases, if_neg hc]
        exact List.Sublist.cons₂ _ (ih (base :: seen))

theorem dedupBases_filterMap (cat : List (Str × DSchema)) (frag : Str) :
    ∀ (stack : List (Option Str)) (seen : List Str),
      (stack.filterMap id).Nodup →
      (∀ b : Str, (some b) ∈ stack → b ∉ seen) →
      (dedupBases stack seen).filterMap (dynamicMatch cat frag) =
        stack.filterMap (dynamicMatch cat frag) := by
  intro stack
  induction stack with
  | nil => intro seen _ _; rfl
  | cons b rest ih =>
    intro seen hnd hdisj
    cases b with
    | none =>
      simp only [dedupBases, List.filterMap_cons]
      have h1 : dynamicMatch cat frag none = none := rfl
      rw [h1]
      have hnd2 : (rest.filterMap id).Nodup := by
        simpa using hnd
      exact ih seen hnd2 (fun c hm => hdisj c (List.mem_cons_of_mem _ hm))
    | some base =>
      have hb : base ∉ seen := hdisj base (List.mem_cons_self _ _)
      simp only [dedupBases, if_neg hb, List.filterMap_cons]
      have hfm : (some base :: rest).filterMap id = base :: rest.filterMap id := by
        simp
      rw [hfm] at hnd
      have hnotin : base ∉ rest.filterMap id := (List.nodup_cons.mp hnd).1
      have hnd2 : (rest.filterMap id).Nodup := (List.nodup_cons.mp hnd).2
      have hdisj2 : ∀ c : Str, (some c) ∈ rest → c ∉ (base :: seen) := by
        intro c hm hcmem
        rcases List.mem_cons.mp hcmem with heq | hseen
        · subst heq
          exact hnotin (List.mem_filterMap.mpr ⟨some c, hm, rfl⟩)
        · exact hdisj c (List.mem_cons_of_mem _ hm) hseen
      cases hdm : dynamicMatch cat frag (some base) with
      | some s => rw [ih (base :: seen) hnd2 hdisj2]
      | none => rw [ih (base :: seen) hnd2 hdisj2]

/-- C1 counterexample: with base URIs a, b, a on the stack (innermost
first) and matching dynamic anchors registered under both a#m and b#m,
the source walk checks each base only at its innermost occurrence and
returns the schema at b#m, while the claim's outermost-scope rule picks
the schema at a#m (the root scope's base is a). -/
theorem dynamicref_outermost_counterexample :
    dynamicRefTarget
        [(("a#m").toList, ⟨['A'], some ['m']⟩), (("b#m").toList, ⟨['B'], some ['m']⟩)]
        ['m'] true ⟨['D'], none⟩
        [some ("a").toList, some ("b").toList, some ("a").toList] =
      ⟨['B'], some ['m']⟩ ∧
    claimDynamicTarget
        [(("a#m").toList, ⟨['A'], some ['m']⟩), (("b#m").toList, ⟨['B'], some ['m']⟩)]
        ['m'] ⟨['D'], none⟩
        [some ("a").toList, some ("b").toList, some ("a").toList] =
      ⟨['A'], some ['m']⟩ ∧
    (⟨['A'], some ['m']⟩ : DSchema) ≠ ⟨['B'], some ['m']⟩ :=
  ⟨by decide, by decide, by decide⟩

/-- C1 (amended): the dynamic walk equals the claim's outermost-match
rule applied to the stack with each base URI kept only at its innermost
occurrence; when the base URIs on the stack are pairwise distinct this is
exactly the claim's rule (outermost match wins, walking to the root);
with no dynamic match anywhere the initially resolved default target is
evaluated, as it is when the reference is not dynamic. -/
theorem dynamicref_bubble_up_characterization :
    ∀ (cat : List (Str × DSchema)) (frag : Str) (defaultTarget : DSchema)
      (stack : List (Option Str)),
      (dynamicRefTarget cat frag true defaultTarget stack =
        claimDynamicTarget cat frag defaultTarget (dedupBases stack [])) ∧
      ((stack.filterMap id).Nodup →
        dynamicRefTarget cat frag true defaultTarget stack =
          claimDynamicTarget cat frag defaultTarget stack) ∧
      (stack.filterMap (dynamicMatch cat frag) = [] →
        dynamicRefTarget cat frag true defaultTarget stack = defaultTarget) ∧
      (dynamicRefTarget cat frag false defaultTarget stack = defaultTarget) := by
  intro cat frag defaultTarget stack
  refine ⟨?_, ?_, ?_, rfl⟩
  · simp only [dynamicRefTarget, eq_self_iff_true, if_true, claimDynamicTarget]
    exact dynamicRefWalk_eq cat frag stack [] defaultTarget
  · intro hnd
    simp only [dynamicRefTarget, eq_self_iff_true, if_true, claimDynamicTarget]
    rw [dynamicRefWalk_eq cat frag stack [] defaultTarget]
    rw [dedupBases_filterMap cat frag stack [] hnd (fun b _ => List.not_mem_nil b)]
  · intro hempty
    simp only [dynamicRefTarget, eq_self_iff_true, if_true]
    rw [dynamicRefWalk_eq cat frag stack [] defaultTarget]
    have hsub : ((dedupBases stack []).filterMap (dynamicMatch cat frag)).Sublist
        (stack.filterMap (dynamicMatch cat frag)) :=
      (dedupBases_sublist stack []).filterMap _
    rw [hempty] at hsub
    rw [List.sublist_nil.mp hsub]
    rfl

/-- Witness for C1 at a concrete stack with pairwise distinct base URIs:
the walk picks the outermost match b#m. -/
theorem dynamicref_bubble_up_witness :
    dynamicRefTarget
        [(("a#m").toList, ⟨['A'], some ['m']⟩), (("b#m").toList, ⟨['B'], some ['m']⟩)]
        ['m'] true ⟨['D'], none⟩ [some ("a").toList, some ("b").toList] =
      claimDynamicTarget
        [(("a#m").toList, ⟨['A'], some ['m']⟩), (("b#m").toList, ⟨['B'], some ['m']⟩)]
        ['m'] ⟨['D'], none⟩ [some ("a").toList, some ("b").toList] ∧
    claimDynamicTarget
        [(("a#m").toList, ⟨['A'], some ['m']⟩), (("b#m").toList, ⟨['B'], some ['m']⟩)]
        ['m'] ⟨['D'], none⟩ [some ("a").toList, some ("b").toList] =
      ⟨['B'], some ['m']⟩ :=
  ⟨(dynamicref_bubble_up_characterization _ _ _ _).2.1 (by decide), by decide⟩

theorem scope_valid_subtree :
    (∀ s : Scope, scopeValid s = true → ∀ t ∈ preorder s, scopeValid t = true) ∧
    (∀ cs : List Scope, scopeValidL cs = true → ∀ t ∈ preorderL cs, scopeValid t = true) := by
  refine scopeValid.mutual_induct _ _ ?_ ?_ ?_
  · intro ip p u e a cs ih hv t ht
    have hv2 := hv
    simp only [scopeValid, Bool.and_eq_true] at hv2
    simp only [preorder, List.mem_cons] at ht
    rcases ht with rfl | ht
    · exact hv
    · exact ih hv2.2 t ht
  · intro _ t ht
    simp [preorderL] at ht
  · intro c cs ihc ihcs hv t ht
    simp only [scopeValidL, Bool.and_eq_true] at hv
    simp only [preorderL, List.mem_append] at ht
    rcases ht with ht | ht
    · exact ihc hv.1 t ht
    · exact ihcs hv.2 t ht

theorem flattenAnn_eq_claim :
    (∀ s : Scope, scopeValid s = true → flattenAnnotations s = claimAnnEntries s) ∧
    (∀ cs : List Scope, scopeValidL cs = true → flattenAnnotationsL cs = claimAnnEntriesL cs) := by
  refine scopeValid.mutual_induct _ _ ?_ ?_ ?_
  · intro ip p u e a cs ih hv
    have hv2 := hv
    simp only [scopeValid, Bool.and_eq_true] at hv2
    have he : e = none := Option.isNone_iff_eq_none.mp hv2.1
    subst he
    simp only [flattenAnnotations, errFalsy, if_true, claimAnnEntries, preorder,
      List.filterMap_cons, Scope.ann, Scope.instpath, Scope.path, Scope.absUri]
    rw [ih hv2.2]
    cases a with
    | none =>
      simp only [claimAnnEntriesL, List.nil_append]
      rfl
    | some av =>
      simp only [hv, claimAnnEntriesL, if_true]
      congr 1
  · intro _
    rfl
  · intro c cs ihc ihcs hv
    simp only [scopeValidL, Bool.and_eq_true] at hv
    simp only [flattenAnnotationsL, claimAnnEntriesL, preorderL, List.filterMap_append]
    rw [ihc hv.1, ihcs hv.2]
    simp [claimAnnEntries, claimAnnEntriesL]

theorem flattenErr_eq_claim :
    (∀ s : Scope, flattenErrors s = claimErrEntries s) ∧
    (∀ cs : List Scope, flattenErrorsL cs = claimErrEntriesL cs) := by
  refine scopeValid.mutual_induct _ _ ?_ ?_ ?_
  · intro ip p u e a cs ih
    by_cases hv : scopeValid (.node ip p u e a cs) = true
    · simp only [flattenErrors, if_pos hv]
      symm
      refine List.filterMap_eq_nil_iff.mpr ?_
      intro t ht
      have := scope_valid_subtree.1 _ hv t ht
      simp [this]
    · have hv2 : scopeValid (.node ip p u e a cs) = false := by
        rw [← Bool.not_eq_true]
        exact hv
      simp only [flattenErrors, if_neg hv]
      simp only [claimErrEntries, preorder, List.filterMap_cons, hv2, if_false,
        Scope.instpath, Scope.path, Scope.absUri, Scope.error]
      rw [ih]
      simp only [claimErrEntriesL]
      rfl
  · rfl
  · intro c cs ihc ihcs
    simp only [flattenErrorsL, claimErrEntriesL, preorderL, List.filterMap_append]
    rw [ihc, ihcs]
    simp [claimErrEntries, claimErrEntriesL]

/-- C2: basic output carries the derived root validity; when the root is
valid it holds the annotations list — in preorder, an entry with instance
location, keyword location, absolute keyword URI and annotation value for
exactly those scopes whose annotation is set and whose entire subtree is
error-free — and when invalid it holds the errors list, an entry of the
same shape with the error field for every failing scope, in preorder. -/
theorem basic_output_characterization :
    ∀ s : Scope,
      ((basicOutput s).valid = scopeValid s) ∧
      (scopeValid s = true →
        basicOutput s = ⟨true, some (claimAnnEntries s), none⟩) ∧
      (scopeValid s = false →
        basicOutput s = ⟨false, none, some (claimErrEntries s)⟩) := by
  intro s
  refine ⟨?_, ?_, ?_⟩
  · unfold basicOutput
    split_ifs with h
    · exact h.symm
    · symm
      rw [← Bool.not_eq_true]
      exact h
  · intro h
    unfold basicOutput
    rw [if_pos h, flattenAnn_eq_claim.1 s h]
  · intro h
    unfold basicOutput
    rw [if_neg (by simp [h]), flattenErr_eq_claim.1 s]

/-- Witness for C2 at concrete scope trees: a valid annotated root emits
its single annotation entry; an invalid root emits its single error
entry. -/
theorem basic_output_witness :
    basicOutput (.node [] [] [] none (some ['x']) []) =
      ⟨true, some (claimAnnEntries (.node [] [] [] none (some ['x']) [])), none⟩ ∧
    claimAnnEntries (.node [] [] [] none (some ['x']) []) = [⟨[], [], [], ['x']⟩] ∧
    basicOutput (.node [] [] [] (some ['e']) none []) =
      ⟨false, none, some (claimErrEntries (.node [] [] [] (some ['e']) none []))⟩ ∧
    claimErrEntries (.node [] [] [] (some ['e']) none []) = [⟨[], [], [], some ['e']⟩] :=
  ⟨(basic_output_characterization _).2.1 (by rfl), by rfl,
   (basic_output_characterization _).2.2 (by rfl), by rfl⟩

theorem beq_iff_eq_all :
    (∀ a b : JValue, beqJ a b = true ↔ a = b) ∧
    (∀ a b : List (Str × JValue), beqO a b = true ↔ a = b) ∧
    (∀ a b : List JValue, beqL a b = true ↔ a = b) := by
  refine beqJ.mutual_induct _ _ _ ?_ ?_ ?_ ?_ ?_ ?_ ?_ ?_ ?_ ?_ ?_ ?_ ?_ ?_
  · simp [beqJ]
  · intro a b; simp [beqJ]
  · intro a b; simp [beqJ]
  · intro a b; simp [beqJ]
  · intro a b; simp [beqJ]
  · intro a b ih; simp [beqJ, ih]
  · intro a b ih; simp [beqJ, ih]
  · intro t x h1 h2 h3 h4 h5 h6 h7
    cases t <;> cases x <;> simp_all [beqJ]
  · simp [beqL]
  · intro x xs y ys ih1 ih2
    simp [beqL, ih1, ih2]
  · intro t x h1 h2
    cases t with
    | nil =>
      cases x with
      | nil => exact (h1 rfl rfl).elim
      | cons y ys => simp [beqL]
    | cons z zs =>
      cases x with
      | nil => simp [beqL]
      | cons y ys => exact (h2 z zs y ys rfl rfl).elim
  · simp [beqO]
  · intro k v xs k2 v2 ys ih1 ih2
    simp [beqO, ih1, ih2]
  · intro t x h1 h2
    cases t with
    | nil =>
      cases x with
      | nil => exact (h1 rfl rfl).elim
      | cons y ys => simp [beqO]
    | cons z zs =>
      cases x with
      | nil => simp [beqO]
      | cons y ys =>
        obtain ⟨k, v⟩ := z
        obtain ⟨k2, v2⟩ := y
        exact (h2 k v zs k2 v2 ys rfl rfl).elim

theorem jsonSame_iff (a b : JValue) : jsonSame a b = true ↔ normJ a = normJ b := by
  simp [jsonSame, beq_iff_eq_all.1]

theorem mem_norm_iff (x : JValue) (acc : List JValue) :
    (acc.any (fun y => jsonSame y x)) = true ↔ normJ x ∈ acc.map normJ := by
  simp only [List.any_eq_true, jsonSame_iff, List.mem_map]

theorem uniqScan_len_le :
    ∀ (xs acc : List JValue), (uniqScan acc xs).length ≤ acc.length + xs.length := by
  intro xs
  induction xs with
  | nil => intro acc; simp [uniqScan]
  | cons x xs ih =>
    intro acc
    by_cases hm : (acc.any (fun y => jsonSame y x)) = true
    · simp only [uniqScan, if_pos hm]
      have := ih acc
      simp only [List.length_cons]
      omega
    · simp only [uniqScan, if_neg hm]
      have := ih (acc ++ [x])
      simp only [List.length_append, List.length_cons, List.length_nil] at this ⊢
      omega

theorem uniqScan_len_eq_iff :
    ∀ (xs acc : List JValue),
      ((uniqScan acc xs).length = acc.length + xs.length) ↔
        ((xs.map normJ).Nodup ∧ ∀ x ∈ xs, normJ x ∉ acc.map normJ) := by
  intro xs
  induction xs with
  | nil => intro acc; simp [uniqScan]
  | cons x xs ih =>
    intro acc
    by_cases hm : (acc.any (fun y => jsonSame y x)) = true
    · simp only [uniqScan, if_pos hm]
      have hle := uniqScan_len_le xs acc
      constructor
      · intro h
        exfalso
        simp only [List.length_cons] at h
        omega
      · rintro ⟨hnd, hall⟩
        exfalso
        exact (hall x (List.mem_cons_self _ _)) ((mem_norm_iff x acc).mp hm)
    · simp only [uniqScan, if_neg hm]
      have hx : normJ x ∉ acc.map normJ := by
        intro hc
        exact hm ((mem_norm_iff x acc).mpr hc)
      have harith : acc.length + (x :: xs).length = (acc ++ [x]).length + xs.length := by
        simp only [List.length_append, List.length_cons, List.length_nil]
        omega
      rw [harith, ih (acc ++ [x])]
      constructor
      · rintro ⟨hnd, hall⟩
        constructor
        · rw [List.map_cons, List.nodup_cons]
          refine ⟨?_, hnd⟩
          intro hc
          rcases List.mem_map.mp hc with ⟨y, hy, hyx⟩
          have hmem := hall y hy
          rw [List.map_append] at hmem
          exact hmem (List.mem_append.mpr (Or.inr (by simp [hyx])))
        · intro y hy
          rcases List.mem_cons.mp hy with rfl | hy2
          · exact hx
          · have hmem := hall y hy2
            rw [List.map_append] at hmem
            intro hc
            exact hmem (List.mem_append.mpr (Or.inl hc))
      · rintro ⟨hnd, hall⟩
        rw [List.map_cons, List.nodup_cons] at hnd
        refine ⟨hnd.2, ?_⟩
        intro y hy
        rw [List.map_append]
        intro hc
        rcases List.mem_append.mp hc with hc1 | hc2
        · exact (hall y (List.mem_cons_of_mem _ hy)) hc1
        · have hyx : normJ y = normJ x := by simpa using hc2
          exact hnd.1 (List.mem_map.mpr ⟨y, hy, hyx⟩)

/-- C6: with value false the uniqueItems assertion passes for every
array; with value true it passes exactly when no two elements are the
same under the JSON Schema sameness rule (structural equality with
cross-type numeric equivalence), the membership scan of the source using
that sameness test. -/
theorem unique_items_characterization :
    ∀ xs : List JValue,
      uniqueItemsValid false xs = true ∧
      (uniqueItemsValid true xs = true ↔
        List.Pairwise (fun a b => jsonSame a b = false) xs) := by
  intro xs
  constructor
  · simp [uniqueItemsValid]
  · have h1 : uniqueItemsValid true xs = (xs.length == (uniqScan [] xs).length) := by
      simp [uniqueItemsValid]
    rw [h1, beq_iff_eq]
    have h2 := uniqScan_len_eq_iff xs []
    simp only [List.length_nil, Nat.zero_add, List.map_nil, List.not_mem_nil,
      not_false_iff, implies_true, and_true] at h2
    constructor
    · intro h
      have hnd := h2.mp h.symm
      have hp : List.Pairwise (fun a b : JValue => normJ a ≠ normJ b) xs :=
        (List.pairwise_map).mp hnd
      refine hp.imp ?_
      intro a b hab
      rw [← Bool.not_eq_true, jsonSame_iff]
      exact hab
    · intro h
      refine (h2.mpr ?_).symm
      refine (List.pairwise_map).mpr ?_
      refine h.imp ?_
      intro a b hab hc
      rw [← jsonSame_iff a b, hab] at hc
      exact Bool.false_ne_true hc

/-- Witness for C6 at concrete arrays: an integer and a string are
pairwise distinct under sameness and pass with value true; with value
false even the pair 1 and 1.0 (the same value) passes. -/
theorem unique_items_witness :
    List.Pairwise (fun a b => jsonSame a b = false) [JValue.int 1, JValue.str ['a']] ∧
    uniqueItemsValid true [JValue.int 1, JValue.str ['a']] = true ∧
    uniqueItemsValid false [JValue.int 1, JValue.num 1] = true :=
  ⟨by decide,
   ((unique_items_characterization [JValue.int 1, JValue.str ['a']]).2).mpr (by decide),
   (unique_items_characterization [JValue.int 1, JValue.num 1]).1⟩

theorem replaceChar_append (c : Char) (r : Str) :
    ∀ a b : Str, JSONPointer.replaceChar c r (a ++ b) =
      JSONPointer.replaceChar c r a ++ JSONPointer.replaceChar c r b := by
  intro a b
  induction a with
  | nil => rfl
  | cons x xs ih =>
    simp only [List.cons_append, JSONPointer.replaceChar, List.append_eq]
    rw [ih, List.append_assoc]

theorem escape_cons (c : Char) (k : Str) :
    JSONPointer.escape (c :: k) =
      (if c = '~' then ['~', '0'] else if c = '/' then ['~', '1'] else [c]) ++
        JSONPointer.escape k := by
  simp only [JSONPointer.escape]
  by_cases h1 : c = '~'
  · subst h1
    rw [show JSONPointer.replaceChar '~' ['~', '0'] ('~' :: k) =
        ['~', '0'] ++ JSONPointer.replaceChar '~' ['~', '0'] k from by
      simp [JSONPointer.replaceChar]]
    rw [replaceChar_append]
    simp [JSONPointer.replaceChar]
  · by_cases h2 : c = '/'
    · subst h2
      rw [show JSONPointer.replaceChar '~' ['~', '0'] ('/' :: k) =
          ['/'] ++ JSONPointer.replaceChar '~' ['~', '0'] k from by
        simp [JSONPointer.replaceChar]]
      rw [replaceChar_append]
      simp [JSONPointer.replaceChar, h1]
    · rw [show JSONPointer.replaceChar '~' ['~', '0'] (c :: k) =
          [c] ++ JSONPointer.replaceChar '~' ['~', '0'] k from by
        simp [JSONPointer.replaceChar, h1]]
      rw [replaceChar_append]
      simp [JSONPointer.replaceChar, h1, h2]

theorem escape_no_slash : ∀ k : Str, '/' ∉ JSONPointer.escape k := by
  intro k
  induction k with
  | nil => simp [JSONPointer.escape, JSONPointer.replaceChar]
  | cons c k ih =>
    rw [escape_cons]
    intro hmem
    rcases List.mem_append.mp hmem with hm | hm
    · split_ifs at hm with h1 h2
      · simp at hm
      · simp at hm
      · simp at hm
        exact h2 hm.symm
    · exact ih hm

theorem tokenValid_escape : ∀ k : Str, JSONPointer.tokenValid (JSONPointer.escape k) = true := by
  intro k
  induction k with
  | nil => rfl
  | cons c k ih =>
    rw [escape_cons]
    by_cases h1 : c = '~'
    · subst h1
      simp only [if_pos rfl, List.cons_append, List.nil_append]
      simp [JSONPointer.tokenValid, ih]
    · by_cases h2 : c = '/'
      · subst h2
        rw [if_neg h1, if_pos rfl]
        simp [JSONPointer.tokenValid, ih]
      · rw [if_neg h1, if_neg h2, List.singleton_append]
        rw [JSONPointer.tokenValid.eq_def]
        simp [h1, h2, ih]

theorem unescTok_cons_nomatch (c : Char) (s : Str) (h : c ≠ '~') :
    JSONPointer.unescTok (c :: s) = c :: JSONPointer.unescTok s := by
  cases s with
  | nil => rfl
  | cons d s2 => simp [JSONPointer.unescTok, h]

theorem unescTok_escape : ∀ k : Str, JSONPointer.unescTok (JSONPointer.escape k) = k := by
  intro k
  induction k with
  | nil => rfl
  | cons c k ih =>
    rw [escape_cons]
    by_cases h1 : c = '~'
    · subst h1
      simp only [if_pos rfl, List.cons_append, List.nil_append]
      simp [JSONPointer.unescTok, ih]
    · by_cases h2 : c = '/'
      · subst h2
        rw [if_neg h1, if_pos rfl]
        simp [JSONPointer.unescTok, ih]
      · rw [if_neg h1, if_neg h2, List.singleton_append, unescTok_cons_nomatch c _ h1, ih]

theorem escape_unescTok :
    ∀ t : Str, JSONPointer.tokenValid t = true →
      JSONPointer.escape (JSONPointer.unescTok t) = t := by
  intro t
  induction t using JSONPointer.tokenValid.induct with
  | case1 => intro _; rfl
  | case2 s =>
    intro h
    rw [JSONPointer.tokenValid.eq_def] at h
    simp at h
  | case3 d s2 hd hne ih =>
    intro h
    rcases hd with rfl | rfl
    · have h2 : JSONPointer.tokenValid s2 = true := by
        simpa [JSONPointer.tokenValid] using h
      rw [show JSONPointer.unescTok ('~' :: '0' :: s2) = '~' :: JSONPointer.unescTok s2 from by
        simp [JSONPointer.unescTok]]
      rw [escape_cons, ih h2]
      simp
    · have h2 : JSONPointer.tokenValid s2 = true := by
        simpa [JSONPointer.tokenValid] using h
      rw [show JSONPointer.unescTok ('~' :: '1' :: s2) = '/' :: JSONPointer.unescTok s2 from by
        simp [JSONPointer.unescTok]]
      rw [escape_cons, ih h2]
      simp
  | case4 d s2 hd hne =>
    intro h
    simp [JSONPointer.tokenValid, hd] at h
  | case5 hne =>
    intro h
    rw [JSONPointer.tokenValid.eq_def] at h
    simp at h
  | case6 c s h1 h2 ih =>
    intro h
    have hts : JSONPointer.tokenValid s = true := by
      rw [JSONPointer.tokenValid.eq_def] at h
      simpa [h1, h2] using h
    rw [unescTok_cons_nomatch c s h2, escape_cons, ih hts]
    simp [h1, h2]

theorem replacePair_cons_nomatch (a b r c : Char) (s : Str) (h : c ≠ a) :
    JSONPointer.replacePair a b r (c :: s) = c :: JSONPointer.replacePair a b r s := by
  cases s with
  | nil => rfl
  | cons d s2 =>
    rw [JSONPointer.replacePair.eq_def]
    simp [h]

theorem replacePair_cons_match (a b r : Char) (s : Str) :
    JSONPointer.replacePair a b r (a :: b :: s) = r :: JSONPointer.replacePair a b r s := by
  rw [JSONPointer.replacePair.eq_def]
  simp

theorem unescape_eq_unescTok :
    ∀ t : Str, JSONPointer.tokenValid t = true →
      JSONPointer.unescape t = JSONPointer.unescTok t := by
  intro t
  induction t using JSONPointer.tokenValid.induct with
  | case1 => intro _; rfl
  | case2 s =>
    intro h
    rw [JSONPointer.tokenValid.eq_def] at h
    simp at h
  | case3 d s2 hd hne ih =>
    intro h
    rcases hd with rfl | rfl
    · have h2 : JSONPointer.tokenValid s2 = true := by
        simpa [JSONPointer.tokenValid] using h
      have hp1 : JSONPointer.replacePair '~' '1' '/' ('~' :: '0' :: s2) =
          '~' :: '0' :: JSONPointer.replacePair '~' '1' '/' s2 := by
        rw [show JSONPointer.replacePair '~' '1' '/' ('~' :: '0' :: s2) =
            '~' :: JSONPointer.replacePair '~' '1' '/' ('0' :: s2) from by
          rw [JSONPointer.replacePair.eq_def]; simp]
        rw [replacePair_cons_nomatch '~' '1' '/' '0' s2 (by decide)]
      simp only [JSONPointer.unescape] at ih ⊢
      rw [hp1, replacePair_cons_match '~' '0' '~' _, ih h2]
      rw [show JSONPointer.unescTok ('~' :: '0' :: s2) = '~' :: JSONPointer.unescTok s2 from by
        simp [JSONPointer.unescTok]]
    · have h2 : JSONPointer.tokenValid s2 = true := by
        simpa [JSONPointer.tokenValid] using h
      have hp1 : JSONPointer.replacePair '~' '1' '/' ('~' :: '1' :: s2) =
          '/' :: JSONPointer.replacePair '~' '1' '/' s2 :=
        replacePair_cons_match '~' '1' '/' s2
      simp only [JSONPointer.unescape] at ih ⊢
      rw [hp1, replacePair_cons_nomatch '~' '0' '~' '/' _ (by decide), ih h2]
      rw [show JSONPointer.unescTok ('~' :: '1' :: s2) = '/' :: JSONPointer.unescTok s2 from by
        simp [JSONPointer.unescTok]]
  | case4 d s2 hd hne =>
    intro h
    simp [JSONPointer.tokenValid, hd] at h
  | case5 hne =>
    intro h
    rw [JSONPointer.tokenValid.eq_def] at h
    simp at h
  | case6 c s h1 h2 ih =>
    intro h
    have hts : JSONPointer.tokenValid s = true := by
      rw [JSONPointer.tokenValid.eq_def] at h
      simpa [h1, h2] using h
    simp only [JSONPointer.unescape] at ih ⊢
    rw [replacePair_cons_nomatch '~' '1' '/' c s h2,
      replacePair_cons_nomatch '~' '0' '~' c _ h2, ih hts,
      unescTok_cons_nomatch c s h2]

theorem escape_unescape_valid (t : Str) (h : JSONPointer.tokenValid t = true) :
    JSONPointer.escape (JSONPointer.unescape t) = t := by
  rw [unescape_eq_unescTok t h, escape_unescTok t h]

theorem unescape_escape (k : Str) : JSONPointer.unescape (JSONPointer.escape k) = k := by
  rw [unescape_eq_unescTok _ (tokenValid_escape k), unescTok_escape]

theorem splitSlash_ne_nil : ∀ s : Str, JSONPointer.splitSlash s ≠ [] := by
  intro s
  induction s with
  | nil => simp [JSONPointer.splitSlash]
  | cons c s ih =>
    simp only [JSONPointer.splitSlash]
    cases h : JSONPointer.splitSlash s with
    | nil => simp
    | cons t ts =>
      split_ifs <;> simp

theorem splitSlash_append :
    ∀ (t x : Str) (u : Str) (us : List Str), '/' ∉ t →
      JSONPointer.splitSlash x = u :: us →
      JSONPointer.splitSlash (t ++ x) = (t ++ u) :: us := by
  intro t
  induction t with
  | nil =>
    intro x u us _ hx
    simpa using hx
  | cons c t ih =>
    intro x u us hmem hx
    have hc : c ≠ '/' := by
      intro hc
      exact hmem (by simp [hc])
    have ht : '/' ∉ t := by
      intro hm
      exact hmem (List.mem_cons_of_mem _ hm)
    simp only [List.cons_append, JSONPointer.splitSlash, List.append_eq]
    rw [ih x u us ht hx]
    simp [hc]

theorem splitSlash_flatten :
    ∀ ts : List Str, (∀ t ∈ ts, '/' ∉ t) →
      JSONPointer.splitSlash ((ts.map (fun t => '/' :: t)).flatten) = [] :: ts := by
  intro ts
  induction ts with
  | nil => intro _; rfl
  | cons t ts ih =>
    intro hall
    simp only [List.map_cons, List.flatten_cons, List.cons_append]
    have hih := ih (fun t2 ht2 => hall t2 (List.mem_cons_of_mem _ ht2))
    have hsp := splitSlash_append t ((ts.map (fun t => '/' :: t)).flatten) [] ts
      (hall t (List.mem_cons_self _ _)) hih
    simp only [List.append_nil] at hsp
    simp only [JSONPointer.splitSlash, hsp]
    simp

theorem flatten_splitSlash :
    ∀ (s : Str) (u : Str) (us : List Str),
      JSONPointer.splitSlash s = u :: us →
      s = u ++ ((us.map (fun t => '/' :: t)).flatten) := by
  intro s
  induction s with
  | nil =>
    intro u us h
    simp only [JSONPointer.splitSlash] at h
    cases h
    rfl
  | cons c s ih =>
    intro u us h
    simp only [JSONPointer.splitSlash] at h
    cases hs : JSONPointer.splitSlash s with
    | nil => exact absurd hs (splitSlash_ne_nil s)
    | cons t ts =>
      rw [hs] at h
      dsimp only at h
      by_cases hc : c = '/'
      · subst hc
        rw [if_pos rfl] at h
        injection h with h1 h2
        subst h1
        subst h2
        have hrec := ih t ts hs
        simp only [List.map_cons, List.flatten_cons, List.nil_append, List.cons_append]
        rw [← hrec]
      · rw [if_neg hc] at h
        injection h with h1 h2
        subst h1
        subst h2
        have hrec := ih t ts hs
        simp only [List.cons_append]
        rw [← hrec]

/-- C3: JSON Pointer round trip — rendering any key sequence and parsing
it back yields the same keys, and parsing any RFC 6901 string and
rendering the result returns the string itself (exactly, which subsumes
the claim's up-to-unescape-normalization allowance). -/
theorem jsonpointer_roundtrip :
    (∀ ks : List Str, JSONPointer.fromString (JSONPointer.toString ks) = .ok ks) ∧
    (∀ (s : Str) (ks : List Str), JSONPointer.fromString s = .ok ks →
      JSONPointer.toString ks = s) := by
  constructor
  · intro ks
    have hmm : JSONPointer.toString ks =
        ((ks.map JSONPointer.escape).map (fun t => '/' :: t)).flatten := by
      rw [List.map_map]
      rfl
    have hsplit : JSONPointer.splitSlash (JSONPointer.toString ks) =
        [] :: ks.map JSONPointer.escape := by
      rw [hmm]
      apply splitSlash_flatten
      intro t ht
      rcases List.mem_map.mp ht with ⟨k, _, rfl⟩
      exact escape_no_slash k
    have hvalid : JSONPointer.pointerStrValid (JSONPointer.toString ks) = true := by
      cases ks with
      | nil => rfl
      | cons k ks2 =>
        have hts : JSONPointer.toString (k :: ks2) =
            '/' :: (JSONPointer.escape k ++
              ((ks2.map (fun k2 => '/' :: JSONPointer.escape k2)).flatten)) := by
          simp [JSONPointer.toString]
        rw [hts, JSONPointer.pointerStrValid.eq_def]
        dsimp only
        rw [if_pos rfl, ← hts, hsplit]
        simp only [List.tail_cons, List.all_eq_true]
        intro t ht
        rcases List.mem_map.mp ht with ⟨k2, _, rfl⟩
        exact tokenValid_escape k2
    simp only [JSONPointer.fromString, hvalid, if_true, hsplit, List.tail_cons,
      List.map_map]
    have hid : ks.map (JSONPointer.unescape ∘ JSONPointer.escape) = ks := by
      calc ks.map (JSONPointer.unescape ∘ JSONPointer.escape)
          = ks.map id := List.map_congr_left (fun a _ => unescape_escape a)
        _ = ks := List.map_id ks
    rw [hid]
  · intro s ks h
    simp only [JSONPointer.fromString] at h
    by_cases hv : JSONPointer.pointerStrValid s = true
    · rw [if_pos hv] at h
      injection h with hks
      subst hks
      cases s with
      | nil => rfl
      | cons c s2 =>
        have hc : c = '/' := by
          rw [JSONPointer.pointerStrValid.eq_def] at hv
          dsimp only at hv
          by_contra hcne
          rw [if_neg hcne] at hv
          exact Bool.false_ne_true hv
        subst hc
        obtain ⟨t, ts, hs2⟩ : ∃ t ts, JSONPointer.splitSlash s2 = t :: ts := by
          cases h2 : JSONPointer.splitSlash s2 with
          | nil => exact absurd h2 (splitSlash_ne_nil s2)
          | cons t ts => exact ⟨t, ts, rfl⟩
        have hsp : JSONPointer.splitSlash ('/' :: s2) = [] :: t :: ts := by
          simp only [JSONPointer.splitSlash, hs2]
          simp
        have hall : ∀ tk ∈ t :: ts, JSONPointer.tokenValid tk = true := by
          rw [JSONPointer.pointerStrValid.eq_def] at hv
          dsimp only at hv
          rw [if_pos rfl, hsp] at hv
          simpa [List.all_eq_true] using hv
        rw [hsp]
        simp only [List.tail_cons]
        have hrecon : ('/' :: s2 : Str) =
            [] ++ (((t :: ts).map (fun tk => '/' :: tk)).flatten) :=
          flatten_splitSlash ('/' :: s2) [] (t :: ts) hsp
        rw [hrecon]
        simp only [List.nil_append, JSONPointer.toString, List.map_map]
        congr 1
        apply List.map_congr_left
        intro tk htk
        simp only [Function.comp]
        rw [escape_unescape_valid tk (hall tk htk)]
    · rw [if_neg hv] at h
      simp at h

/-- Witness for C3 at concrete inputs: a key sequence with characters
needing escapes survives render-then-parse, and the string consisting of
one token with a ~1 escape survives parse-then-render. -/
theorem jsonpointer_roundtrip_witness :
    JSONPointer.fromString (JSONPointer.toString [['a'], ['~'], ['/']]) =
      .ok [['a'], ['~'], ['/']] ∧
    JSONPointer.toString [("a/b".toList)] = ("/a~1b".toList) :=
  ⟨jsonpointer_roundtrip.1 [['a'], ['~'], ['/']],
   jsonpointer_roundtrip.2 ("/a~1b".toList) [("a/b".toList)] rfl⟩
